import Mathlib

/-!
# Verification of the hammersbald blockchain-db engine (`src/bcdb.rs`)

This development shallowly embeds the `BCDB` engine of `src/bcdb.rs` and the
behaviour of its collaborator components.  `bcdb.rs` is the only source file
available; the collaborators (`DataFile`, `LinkFile`, `TableFile`, `LogFile`,
`MemTable`, `Offset`) are modelled from the specification (`spec.md`), as noted
on each definition.  Machine-level details are abstracted uniformly:

* an `Offset` into the Content Log is the index of its record (record-granular
  addressing, strictly monotone in append order, matching §3 "Offset");
* an `Offset` into the Link Log is `index + 1`, keeping the specification's
  distinguished zero value meaning "absent";
* file lengths are measured in the same record/page units that `truncate`
  consumes, so the length recorded by `LogFile.init` and the length consumed by
  `truncate` agree, as they do (in bytes) in the source;
* the batch/shutdown steps of the engine additionally record an event trace so
  that ordering claims about `batch` and `shutdown` can be stated.
-/

/-- Errors of the engine (spec §7): `DoesNotFit` for size-limit violations,
`Corrupted` with a detail string for undecodable on-disk structures. -/
inductive BCDBError where
  | DoesNotFit : BCDBError
  | Corrupted : String → BCDBError
  deriving DecidableEq, Repr

/-- Modelled from the spec (§3 "Content record"): a Content Log record is
either *Keyed* (a key list plus payload) or an *Extension* (payload only). -/
inductive Content where
  | data : List (List Nat) → List Nat → Content
  | extension : List Nat → Content
  deriving DecidableEq, Repr

/-- Modelled from the spec (§4.2 Content Log): an append-only sequence of
records, plus the running flag of its background writer (§5, §9). -/
structure DataFile where
  records : List Content
  running : Bool
  deriving DecidableEq, Repr

/-- Modelled from the spec (§4.2): append a Keyed record, returning its
Offset.  The Offset of a record is its index in the file. -/
def DataFile.append_data (df : DataFile) (keys : List (List Nat))
    (payload : List Nat) : Nat × DataFile :=
  (df.records.length, { df with records := df.records ++ [Content.data keys payload] })

/-- Modelled from the spec (§4.2): append an Extension record. -/
def DataFile.append_data_extension (df : DataFile) (payload : List Nat) :
    Nat × DataFile :=
  (df.records.length, { df with records := df.records ++ [Content.extension payload] })

/-- Modelled from the spec (§4.2 `resolve`): decode the record at an offset;
`none` when the offset does not address a record. -/
def DataFile.get_content (df : DataFile) (offset : Nat) : Option Content :=
  df.records.get? offset

/-- Modelled from the spec (§4.2): discard bytes beyond `n`; recovery only. -/
def DataFile.truncate (df : DataFile) (n : Nat) : DataFile :=
  { df with records := df.records.take n }

/-- Modelled from the spec (§4.2, §9): empty the file at initialization. -/
def DataFile.init (_df : DataFile) : DataFile :=
  { records := [], running := true }

/-- Modelled from the spec (§5, §9): stop the background writer task. -/
def DataFile.shutdown (df : DataFile) : DataFile :=
  { df with running := false }

/-- Modelled from the spec (§3 "Link record", §4.3 Link Log): append-only
records, each an entry list (slot tag, target offset) and a previous-offset. -/
structure LinkFile where
  records : List (List (Nat × Nat) × Nat)
  running : Bool
  deriving DecidableEq, Repr

/-- Modelled from the spec (§4.3 `append`): the record stored at index `i` has
Offset `i + 1`, keeping zero as the distinguished "absent" offset (§3). -/
def LinkFile.append (lf : LinkFile) (entries : List (Nat × Nat)) (previous : Nat) :
    Nat × LinkFile :=
  (lf.records.length + 1, { lf with records := lf.records ++ [(entries, previous)] })

/-- Modelled from the spec (§4.3 `resolve`): fetch a link record by offset. -/
def LinkFile.get_link (lf : LinkFile) (offset : Nat) :
    Option (List (Nat × Nat) × Nat) :=
  if offset = 0 then none else lf.records.get? (offset - 1)

/-- Modelled from the spec (§4.3): recovery-only truncation. -/
def LinkFile.truncate (lf : LinkFile) (n : Nat) : LinkFile :=
  { lf with records := lf.records.take n }

/-- Modelled from the spec (§4.2, §9): empty the file at initialization. -/
def LinkFile.init (_lf : LinkFile) : LinkFile :=
  { records := [], running := true }

/-- Modelled from the spec (§5, §9): stop the background writer task. -/
def LinkFile.shutdown (lf : LinkFile) : LinkFile :=
  { lf with running := false }

/-- Modelled from the spec (§4.4 Index Table): a paged array of bucket head
offsets; each page is the list of heads it contains. -/
structure TableFile where
  pages : List (List Nat)
  deriving DecidableEq, Repr

/-- Modelled from the spec (§4.4 `patch_page`): overwrite one page in place. -/
def TableFile.patch_page (tf : TableFile) (pos : Nat) (image : List Nat) : TableFile :=
  { pages := tf.pages.set pos image }

/-- Modelled from the spec (§4.4): page-aligned truncation (length in pages). -/
def TableFile.truncate (tf : TableFile) (n : Nat) : TableFile :=
  { pages := tf.pages.take n }

/-- Modelled from the spec (§6): a Recovery Log page carries its table-page
position and its raw bytes. -/
structure LogPage where
  pos : Nat
  bytes : List Nat
  deriving DecidableEq, Repr

/-- Modelled from the spec (§4.5 Recovery Log): a paged, append-only log. -/
structure LogFile where
  pages : List LogPage
  deriving DecidableEq, Repr

/-- Modelled from the spec (§4.1, §6): 6-byte big-endian encoding of a 48-bit
offset. -/
def be6 (n : Nat) : List Nat :=
  [n / 256 ^ 5 % 256, n / 256 ^ 4 % 256, n / 256 ^ 3 % 256,
   n / 256 ^ 2 % 256, n / 256 % 256, n % 256]

/-- Modelled from the spec (§4.1 `Offset::from`): big-endian decoding. -/
def offsetFrom (bs : List Nat) : Nat :=
  bs.foldl (fun a b => a * 256 + b) 0

/-- Modelled from the spec (§4.5 `open_snapshot`, §3 "Recovery Log page"):
page 0 records the three lengths; `BCDB.recover` reads them back at byte
offsets 2, 8 and 14. -/
def mkSnapshotPage (data_len table_len link_len : Nat) : LogPage :=
  ⟨0, [0, 0] ++ be6 data_len ++ be6 table_len ++ be6 link_len⟩

/-- Modelled from the spec (§4.5 `open_snapshot`): (re)write the log so that it
holds exactly the page-0 length snapshot; called at creation and after every
completed batch. -/
def LogFile.init (_lg : LogFile) (data_len table_len link_len : Nat) : LogFile :=
  ⟨[mkSnapshotPage data_len table_len link_len]⟩

/-- Modelled from the spec (§4.5 `append_redo_image`): append a table-page
image that is about to be applied. -/
def LogFile.append_redo (lg : LogFile) (p : LogPage) : LogFile :=
  ⟨lg.pages ++ [p]⟩

/-- Modelled from the spec: `page.read(off, buf)` reads `n` bytes at byte
offset `off` of a log page. -/
def pageRead (p : LogPage) (off n : Nat) : List Nat :=
  (p.bytes.drop off).take n

/-- Modelled from the spec (§4.4, §6): decode a page image into its sequence
of 6-byte big-endian bucket offsets. -/
def decode6 : List Nat → List Nat
  | b0 :: b1 :: b2 :: b3 :: b4 :: b5 :: rest =>
    offsetFrom [b0, b1, b2, b3, b4, b5] :: decode6 rest
  | _ => []

/-- Modelled from the spec (§4.4, §6): encode a table page as a log-page image
at table position `pos`. -/
def mkPatchPage (pos : Nat) (buckets : List Nat) : LogPage :=
  ⟨pos, (buckets.map be6).flatten⟩

/-- `TablePage::from(page)`: reinterpret a recovery-log page as an Index Table
page (position and decoded bucket heads).  Modelled from the spec (§4.4). -/
def tablePageFrom (p : LogPage) : Nat × List Nat :=
  (p.pos, decode6 p.bytes)

/-- Number of buckets of the Write-Back Index in this model (the concrete
count is immaterial to the claims; the source grows it dynamically). -/
def NBUCKETS : Nat := 16

/-- Buckets per Index Table page in this model. -/
def BPP : Nat := 4

/-- Modelled from the spec (§4.6): "a hash function over the key bytes"; a
concrete stand-in for the source's keyed hash. -/
def keyHash (key : List Nat) : Nat :=
  key.foldl (fun a b => (a * 31 + b) % 4294967296) 1

/-- Modelled from the spec (§4.6): the bucket addressed by a key. -/
def bucketOf (key : List Nat) : Nat :=
  keyHash key % NBUCKETS

/-- Modelled from the spec (§4.6): the slot tag of a key — a hash filter, not
a proof of equality. -/
def slotTag (key : List Nat) : Nat :=
  keyHash key % 65536

/-- Modelled from the spec (§3 "Write-Back Index entry"): per-bucket state —
pending in-memory chain entries (newest first) plus the last-known persisted
chain head offset (0 = none). -/
structure Bucket where
  pending : List (Nat × Nat)
  head : Nat
  deriving DecidableEq, Repr

/-- Modelled from the spec (§4.6 Write-Back Index): one bucket per slot. -/
structure MemTable where
  buckets : List Bucket
  deriving DecidableEq, Repr

/-- `MemTable::load(&table, &link)`: modelled from the spec (§4.6) — read
every Index Table bucket into memory; pending chains start empty.  (The link
file is consulted lazily by `get` in this model, hence unused here.) -/
def MemTable.load (tf : TableFile) (_lf : LinkFile) : MemTable :=
  ⟨tf.pages.flatten.map (fun h => ⟨[], h⟩)⟩

/-- Replace bucket `i` by `f` of its current value (absent buckets read as
empty with head 0). -/
def modifyBucket (bs : List Bucket) (i : Nat) (f : Bucket → Bucket) : List Bucket :=
  bs.set i (f ((bs.get? i).getD ⟨[], 0⟩))

/-- Modelled from the spec (§4.6 `put`): for each key, prepend the chain entry
`(slotTagOf key, dataOffset)` to its bucket's pending chain; no disk I/O. -/
def MemTable.put (m : MemTable) (keys : List (List Nat)) (offset : Nat) : MemTable :=
  keys.foldl
    (fun m k =>
      ⟨modifyBucket m.buckets (bucketOf k)
        (fun b => ⟨(slotTag k, offset) :: b.pending, b.head⟩)⟩)
    m

/-- Fuel-indexed walk of the persisted chain: follow `previous` pointers from
a head offset, collecting entries.  In every reachable state `previous` is
strictly below the record's own offset (links chain back in time, §3), which
the guard makes explicit; `fuel = head` therefore always suffices. -/
def chainWalk (lf : LinkFile) : Nat → Nat → List (Nat × Nat)
  | 0, _ => []
  | fuel + 1, h =>
    if h = 0 then []
    else
      match lf.get_link h with
      | none => []
      | some (entries, previous) =>
        entries ++ (if previous < h then chainWalk lf fuel previous else [])

/-- Modelled from the spec (§4.6): all chain entries reachable from a
persisted head, newest first. -/
def chainEntries (lf : LinkFile) (h : Nat) : List (Nat × Nat) :=
  chainWalk lf h h

/-- Modelled from the spec (§4.6 `get`): a chain entry yields a result when
its slot tag matches the key's, its target decodes as a Keyed record, and that
record's key list actually contains the key (true equality, not the hash). -/
def resolveEntry (df : DataFile) (key : List Nat) (e : Nat × Nat) :
    Option (Nat × List (List Nat) × List Nat) :=
  if e.1 = slotTag key then
    match df.get_content e.2 with
    | some (Content.data keys payload) =>
      if key ∈ keys then some (e.2, keys, payload) else none
    | _ => none
  else none

/-- Modelled from the spec (§4.6 `get`): walk the bucket's pending entries and
then the persisted chain, yielding verified matches in chain order. -/
def MemTable.get (m : MemTable) (key : List Nat) (lf : LinkFile) (df : DataFile) :
    List (Nat × List (List Nat) × List Nat) :=
  let b := (m.buckets.get? (bucketOf key)).getD ⟨[], 0⟩
  (b.pending ++ chainEntries lf b.head).filterMap (resolveEntry df key)

/-- Modelled from the spec (§4.6 `get_unique`): the first element of `get`. -/
def MemTable.get_unique (m : MemTable) (key : List Nat) (lf : LinkFile)
    (df : DataFile) : Option (Nat × List (List Nat) × List Nat) :=
  (m.get key lf df).head?

/-- Modelled from the spec (§4.6 `flush`), bucket `i` onward: for each bucket
with pending entries, append them as a link record chained to the previous
head, append the updated table-page image to the Recovery Log, then patch the
Index Table page with the same image, and clear the pending state. -/
def flushAux (i : Nat) (bs : List Bucket) (lg : LogFile) (tf : TableFile)
    (lf : LinkFile) : List Bucket × LogFile × TableFile × LinkFile :=
  match bs with
  | [] => ([], lg, tf, lf)
  | b :: rest =>
    if b.pending = [] then
      let r := flushAux (i + 1) rest lg tf lf
      (b :: r.1, r.2)
    else
      let ap := lf.append b.pending b.head
      let pageNo := i / BPP
      let newPage := ((tf.pages.get? pageNo).getD []).set (i % BPP) ap.1
      let r := flushAux (i + 1) rest (lg.append_redo (mkPatchPage pageNo newPage))
        (tf.patch_page pageNo newPage) ap.2
      (⟨[], ap.1⟩ :: r.1, r.2)

/-- `MemTable::flush(&mut log, &mut table, &mut link)`: modelled from the spec
(§4.6 `flush`), redo-image-then-patch per bucket. -/
def MemTable.flush (m : MemTable) (lg : LogFile) (tf : TableFile) (lf : LinkFile) :
    MemTable × LogFile × TableFile × LinkFile :=
  let r := flushAux 0 m.buckets lg tf lf
  (⟨r.1⟩, r.2)

/-- Observable engine events, recorded by `batch` and `shutdown` so that the
ordering of their component operations can be stated. -/
inductive Ev where
  | dataFlush | dataSync | memFlush | linkSync | tableSync
  | logInit : Nat → Nat → Nat → Ev
  | logSync | dataShutdown | linkShutdown
  deriving DecidableEq, Repr

/-- The blockchain db (struct `BCDB` of `bcdb.rs`), with an event trace. -/
structure BCDB where
  mem : MemTable
  table : TableFile
  link : LinkFile
  data : DataFile
  log : LogFile
  events : List Ev
  deriving DecidableEq, Repr

/-- `BCDB::new(log, table, data, link)` (`bcdb.rs` 73-78): build the struct —
loading the Write-Back Index from the given table and link files — then run
`recover`, then run the first `batch`.  (Defined below, after its parts.) -/
def BCDB.mk0 (lg : LogFile) (tf : TableFile) (df : DataFile) (lf : LinkFile) : BCDB :=
  { mem := MemTable.load tf lf, table := tf, link := lf, data := df, log := lg,
    events := [] }

/-- One iteration of the `recover` loop (`bcdb.rs` 83-105): the first page
yields the three lengths read at byte offsets 2, 8 and 14 (each a 6-byte
big-endian offset) and truncates data, table and link to them; every later
page is applied to the Index Table via `patch_page`. -/
def recoverStep (acc : BCDB × Bool) (page : LogPage) : BCDB × Bool :=
  match acc with
  | (db, first) =>
    if !first then
      let tp := tablePageFrom page
      ({ db with table := db.table.patch_page tp.1 tp.2 }, false)
    else
      let data_len := offsetFrom (pageRead page 2 6)
      let table_len := offsetFrom (pageRead page 8 6)
      let link_len := offsetFrom (pageRead page 14 6)
      ({ db with
          data := db.data.truncate data_len,
          table := db.table.truncate table_len,
          link := db.link.truncate link_len }, false)

/-- `BCDB::recover` (`bcdb.rs` 80-107): iterate the Recovery Log pages. -/
def BCDB.recover (db : BCDB) : BCDB :=
  (db.log.pages.foldl recoverStep (db, true)).1

/-- `BCDBAPI::batch for BCDB` (`bcdb.rs` 142-160): flush and sync the Content
Log, record its length; flush the Write-Back Index into the Recovery Log,
Index Table and Link Log; sync the Link Log, record its length; sync the Index
Table, record its length; write a fresh Recovery Log snapshot of the three
lengths; sync the Recovery Log.  Flush/sync of a file does not change its
logical content, so those steps appear only in the event trace. -/
def BCDB.batch (db : BCDB) : BCDB :=
  let ev1 := db.events ++ [Ev.dataFlush, Ev.dataSync]
  let data_len := db.data.records.length
  let fr := db.mem.flush db.log db.table db.link
  let ev2 := ev1 ++ [Ev.memFlush, Ev.linkSync]
  let link_len := fr.2.2.2.records.length
  let ev3 := ev2 ++ [Ev.tableSync]
  let table_len := fr.2.2.1.pages.length
  let lg2 := fr.2.1.init data_len table_len link_len
  { mem := fr.1, table := fr.2.2.1, link := fr.2.2.2, data := db.data, log := lg2,
    events := ev3 ++ [Ev.logInit data_len table_len link_len, Ev.logSync] }

/-- `BCDB::new` (`bcdb.rs` 73-78). -/
def BCDB.new (lg : LogFile) (tf : TableFile) (df : DataFile) (lf : LinkFile) : BCDB :=
  ((BCDB.mk0 lg tf df lf).recover).batch

/-- `BCDBAPI::init for BCDB` (`bcdb.rs` 133-138): empty the Content and Link
Logs and write an all-zero Recovery Log snapshot. -/
def BCDB.init (db : BCDB) : BCDB :=
  { db with data := db.data.init, link := db.link.init, log := db.log.init 0 0 0 }

/-- `BCDBAPI::shutdown for BCDB` (`bcdb.rs` 163-166): stop the background
writers of the Content Log and the Link Log; nothing else. -/
def BCDB.shutdown (db : BCDB) : BCDB :=
  { db with data := db.data.shutdown, link := db.link.shutdown,
            events := db.events ++ [Ev.dataShutdown, Ev.linkShutdown] }

/-- The success path of `put` (`bcdb.rs` 179-181): append a Keyed record to
the Content Log once, then record the returned offset in the Write-Back Index
under every key. -/
def BCDB.putU (db : BCDB) (keys : List (List Nat)) (payload : List Nat) :
    Nat × BCDB :=
  let ad := db.data.append_data keys payload
  (ad.1, { db with data := ad.2, mem := db.mem.put keys ad.1 })

/-- `BCDBAPI::put for BCDB` (`bcdb.rs` 170-182).  The size-limit check of
lines 171-177 is compiled only when `debug_assertions` is on; the build
configuration is the `dbg` parameter. -/
def BCDB.put (dbg : Bool) (db : BCDB) (keys : List (List Nat))
    (payload : List Nat) : Except BCDBError (Nat × BCDB) :=
  if dbg ∧ (keys.length > 255 ∨ payload.length ≥ 2 ^ 23 ∨
      keys.any (fun k => k.length > 255)) then
    Except.error BCDBError.DoesNotFit
  else
    Except.ok (db.putU keys payload)

/-- `BCDBAPI::get for BCDB` (`bcdb.rs` 185-187): `self.mem.get(key, &self.data)`
(the link file, owned by the engine, is passed explicitly in this model). -/
def BCDB.get (db : BCDB) (key : List Nat) :
    List (Nat × List (List Nat) × List Nat) :=
  db.mem.get key db.link db.data

/-- `BCDBAPI::get_unique for BCDB` (`bcdb.rs` 190-192). -/
def BCDB.get_unique (db : BCDB) (key : List Nat) :
    Option (Nat × List (List Nat) × List Nat) :=
  db.mem.get_unique key db.link db.data

/-- `BCDBAPI::put_content for BCDB` (`bcdb.rs` 196-198): unkeyed append. -/
def BCDB.put_content (db : BCDB) (payload : List Nat) : Nat × BCDB :=
  let ad := db.data.append_data_extension payload
  (ad.1, { db with data := ad.2 })

/-- `BCDBAPI::get_content for BCDB` (`bcdb.rs` 201-207): resolve an offset,
distinguishing Extension and Keyed records; anything else is `Corrupted`
naming the offset. -/
def BCDB.get_content (db : BCDB) (offset : Nat) :
    Except BCDBError (List (List Nat) × List Nat) :=
  match db.data.get_content offset with
  | some (Content.extension d) => Except.ok ([], d)
  | some (Content.data keys d) => Except.ok (keys, d)
  | _ => Except.error (BCDBError.Corrupted ("wrong offset " ++ toString offset))

/-- A freshly initialized database: `NBUCKETS` empty buckets, empty files, an
all-zero length snapshot — the state after `new_db` + `init` on empty files. -/
def initDb : BCDB :=
  BCDB.init
    { mem := ⟨List.replicate NBUCKETS ⟨[], 0⟩⟩,
      table := ⟨List.replicate (NBUCKETS / BPP) (List.replicate BPP 0)⟩,
      link := ⟨[], true⟩, data := ⟨[], true⟩, log := ⟨[]⟩, events := [] }

/-- Run a sequence of (keys, payload) `put` calls (success path). -/
def runOps (db : BCDB) (ops : List (List (List Nat) × List Nat)) : BCDB :=
  ops.foldl (fun db op => (db.putU op.1 op.2).2) db

/-- Run a sequence of single-key `put` calls for one key, collecting the
returned offsets. -/
def runPutsK (k : List Nat) (ps : List (List Nat)) : BCDB × List Nat :=
  ps.foldl (fun st p =>
    let r := st.1.putU [k] p
    (r.2, st.2 ++ [r.1])) (initDb, [])

/-- The chain entries contributed to bucket `j` by one `MemTable.put` of the
key list `ks` at offset `off` (newest first). -/
def newEntriesFor (j : Nat) (ks : List (List Nat)) (off : Nat) : List (Nat × Nat) :=
  ((ks.filter (fun k => bucketOf k == j)).reverse).map (fun k => (slotTag k, off))

/-- The expected result of `get k` after single-key puts of the payload list
`ps` for the key `k`, the `n`-th put appended at Content Log offset `n₀ + n`:
newest first. -/
def puthist (k : List Nat) : Nat → List (List Nat) →
    List (Nat × List (List Nat) × List Nat)
  | _, [] => []
  | n, p :: rest => puthist k (n + 1) rest ++ [(n, [k], p)]

/-- Well-formedness of an engine state: the bucket count is fixed, every
chain entry (pending or persisted) targets an existing Content Log record,
and every persisted chain head addresses an existing Link Log record. -/
def WF (db : BCDB) : Prop :=
  db.mem.buckets.length = NBUCKETS ∧
  (∀ b ∈ db.mem.buckets,
      (∀ e ∈ b.pending, e.2 < db.data.records.length) ∧
      b.head ≤ db.link.records.length) ∧
  (∀ r ∈ db.link.records, ∀ e ∈ r.1, e.2 < db.data.records.length)

/-- 256 distinct single-byte keys — one more than the documented limit. -/
def keys256 : List (List Nat) := (List.range 256).map (fun i => [i])

/-- A Recovery Log holding a length snapshot (data 1, table 1, link 0) and one
redo image setting table page 0 to the single bucket head 9. -/
def cexLog : LogFile := ⟨[mkSnapshotPage 1 1 0, mkPatchPage 0 [9]]⟩

/-- An Index Table whose single page holds the single bucket head 7. -/
def cexTable : TableFile := ⟨[[7]]⟩

/-- A one-record Content Log. -/
def cexData : DataFile := ⟨[Content.extension []], true⟩

/-- An empty Link Log. -/
def cexLink : LinkFile := ⟨[], true⟩

/-- A state for exercising `recover`: its log asks to truncate the Content Log
to 1 record, the Index Table to 1 page and the Link Log to 0 records, then to
patch table page 0 to `[9]`. -/
def recDb : BCDB :=
  { mem := ⟨List.replicate NBUCKETS ⟨[], 0⟩⟩,
    table := ⟨[[7], [3]]⟩,
    link := ⟨[([(5, 0)], 0)], true⟩,
    data := ⟨[Content.extension [1], Content.extension [2]], true⟩,
    log := ⟨[mkSnapshotPage 1 1 0, mkPatchPage 0 [9]]⟩,
    events := [] }

/-- A two-record database for exercising `get_content` on each record kind and
on a dangling offset. -/
def cdb7 : BCDB :=
  { mem := ⟨List.replicate NBUCKETS ⟨[], 0⟩⟩,
    table := ⟨List.replicate (NBUCKETS / BPP) (List.replicate BPP 0)⟩,
    link := ⟨[], true⟩,
    data := ⟨[Content.data [[1]] [2], Content.extension [3]], true⟩,
    log := ⟨[]⟩, events := [] }

/-! ## Chain-walk lemmas -/

theorem chainWalk_head_zero (lf : LinkFile) (fuel : Nat) : chainWalk lf fuel 0 = [] := by
  cases fuel <;> simp [chainWalk]

theorem chainWalk_ext (lf lf' : LinkFile) (ext : List (List (Nat × Nat) × Nat))
    (hrec : lf'.records = lf.records ++ ext) :
    ∀ fuel h, h ≤ lf.records.length → chainWalk lf' fuel h = chainWalk lf fuel h := by
  intro fuel
  induction fuel with
  | zero => intro h _; rfl
  | succ fuel ih =>
    intro h hle
    by_cases h0 : h = 0
    · subst h0; simp [chainWalk]
    · have hidx : h - 1 < lf.records.length := by omega
      have hlink : lf'.get_link h = lf.get_link h := by
        simp [LinkFile.get_link, h0, hrec, List.getElem?_append_left hidx]
      simp only [chainWalk, h0, if_false, hlink]
      cases hg : lf.get_link h with
      | none => rfl
      | some r =>
        by_cases hp : r.2 < h
        · have : r.2 ≤ lf.records.length := by omega
          simp [hp, ih r.2 this]
        · simp [hp]

theorem chainWalk_fuel (lf : LinkFile) :
    ∀ h f₁ f₂, h ≤ f₁ → h ≤ f₂ → chainWalk lf f₁ h = chainWalk lf f₂ h := by
  intro h
  induction h using Nat.strong_induction_on with
  | _ h ih =>
    intro f₁ f₂ hf₁ hf₂
    by_cases h0 : h = 0
    · subst h0; rw [chainWalk_head_zero, chainWalk_head_zero]
    · obtain ⟨a, rfl⟩ : ∃ a, f₁ = a + 1 := ⟨f₁ - 1, by omega⟩
      obtain ⟨b, rfl⟩ : ∃ b, f₂ = b + 1 := ⟨f₂ - 1, by omega⟩
      simp only [chainWalk, h0, if_false]
      cases hg : lf.get_link h with
      | none => rfl
      | some r =>
        by_cases hp : r.2 < h
        · simp [hp, ih r.2 hp a b (by omega) (by omega)]
        · simp [hp]

theorem chainEntries_ext (lf lf' : LinkFile) (ext : List (List (Nat × Nat) × Nat))
    (hrec : lf'.records = lf.records ++ ext) (h : Nat)
    (hle : h ≤ lf.records.length) : chainEntries lf' h = chainEntries lf h := by
  unfold chainEntries
  exact chainWalk_ext lf lf' ext hrec h h hle

theorem chainEntries_append (lf : LinkFile) (entries : List (Nat × Nat))
    (previous : Nat) (hprev : previous ≤ lf.records.length) :
    chainEntries (lf.append entries previous).2 (lf.append entries previous).1 =
      entries ++ chainEntries lf previous := by
  have hlink : (lf.append entries previous).2.get_link (lf.records.length + 1) =
      some (entries, previous) := by
    simp [LinkFile.append, LinkFile.get_link, List.getElem?_concat_length]
  have hp : previous < lf.records.length + 1 := by omega
  unfold chainEntries
  show chainWalk (lf.append entries previous).2 (lf.records.length + 1)
      (lf.records.length + 1) = _
  rw [show chainWalk (lf.append entries previous).2 (lf.records.length + 1)
      (lf.records.length + 1) =
      entries ++ chainWalk (lf.append entries previous).2 lf.records.length previous by
    simp only [chainWalk, hlink, hp, if_true]
    simp]
  congr 1
  rw [chainWalk_ext lf (lf.append entries previous).2 [(entries, previous)] rfl
    lf.records.length previous hprev]
  exact chainWalk_fuel lf previous lf.records.length previous hprev (Nat.le_refl _)

theorem chainWalk_entries_mem (lf : LinkFile) :
    ∀ fuel h e, e ∈ chainWalk lf fuel h → ∃ r ∈ lf.records, e ∈ r.1 := by
  intro fuel
  induction fuel with
  | zero => intro h e he; simp [chainWalk] at he
  | succ fuel ih =>
    intro h e he
    by_cases h0 : h = 0
    · subst h0; simp [chainWalk] at he
    · simp only [chainWalk, h0, if_false] at he
      cases hg : lf.get_link h with
      | none => rw [hg] at he; simp at he
      | some r =>
        rw [hg] at he
        have hrmem : r ∈ lf.records := by
          have : lf.records.get? (h - 1) = some r := by
            simpa [LinkFile.get_link, h0] using hg
          exact List.get?_mem this
        simp only [List.mem_append] at he
        rcases he with he | he
        · exact ⟨r, hrmem, he⟩
        · by_cases hp : r.2 < h
          · rw [if_pos hp] at he
            exact ih r.2 e he
          · rw [if_neg hp] at he; simp at he

theorem chainEntries_entries_mem (lf : LinkFile) (h : Nat) (e : Nat × Nat)
    (he : e ∈ chainEntries lf h) : ∃ r ∈ lf.records, e ∈ r.1 :=
  chainWalk_entries_mem lf h h e he

/-! ## Recovery lemmas -/

theorem recoverStep_false (db : BCDB) (pg : LogPage) :
    recoverStep (db, false) pg =
      ({ db with table := db.table.patch_page (tablePageFrom pg).1 (tablePageFrom pg).2 },
        false) := rfl

theorem foldl_recoverStep_false (pages : List LogPage) :
    ∀ db : BCDB,
      pages.foldl recoverStep (db, false) =
        ({ db with
            table := pages.foldl
              (fun tf pg => tf.patch_page (tablePageFrom pg).1 (tablePageFrom pg).2)
              db.table }, false) := by
  induction pages with
  | nil => intro db; simp
  | cons pg rest ih =>
    intro db
    simp only [List.foldl_cons, recoverStep_false, ih]

theorem recoverStep_first (db : BCDB) (pg : LogPage) :
    recoverStep (db, true) pg =
      ({ db with
          data := db.data.truncate (offsetFrom (pageRead pg 2 6)),
          table := db.table.truncate (offsetFrom (pageRead pg 8 6)),
          link := db.link.truncate (offsetFrom (pageRead pg 14 6)) }, false) := rfl

theorem foldl_recoverStep_mem (pages : List LogPage) :
    ∀ acc : BCDB × Bool, (pages.foldl recoverStep acc).1.mem = acc.1.mem := by
  induction pages with
  | nil => intro acc; rfl
  | cons pg rest ih =>
    intro acc
    rcases acc with ⟨db, first⟩
    simp only [List.foldl_cons]
    rw [ih]
    cases first
    · rfl
    · rfl

/-- Decoding the three lengths back out of a snapshot page. -/
theorem pageRead_snapshot (d t l : Nat) :
    pageRead (mkSnapshotPage d t l) 2 6 = be6 d ∧
    pageRead (mkSnapshotPage d t l) 8 6 = be6 t ∧
    pageRead (mkSnapshotPage d t l) 14 6 = be6 l := by
  refine ⟨?_, ?_, ?_⟩ <;> simp [pageRead, mkSnapshotPage, be6]

/-- Big-endian decode inverts big-endian encode below 2⁴⁸. -/
theorem offsetFrom_be6 (n : Nat) (h : n < 2 ^ 48) : offsetFrom (be6 n) = n := by
  simp only [offsetFrom, be6, List.foldl_cons, List.foldl_nil]
  omega

/-- Claim C2: the recovery procedure reads the three lengths from the first
Recovery Log page (at byte offsets 2, 8 and 14), truncates the Content Log,
Index Table and Link Log to exactly those lengths, and then applies every
remaining log page, in iteration order, as a redo patch to the Index Table
via `patch_page`; truncation restores exactly the committed prefixes of the
Content and Link Logs, and a snapshot page decodes to exactly the lengths the
last completed batch recorded, so the net effect is the state as of the last
completed batch. -/
theorem recover_replays_log (db : BCDB) (p0 : LogPage) (rest : List LogPage)
    (hlog : db.log.pages = p0 :: rest) :
    db.recover.data = db.data.truncate (offsetFrom (pageRead p0 2 6)) ∧
    db.recover.link = db.link.truncate (offsetFrom (pageRead p0 14 6)) ∧
    db.recover.table = rest.foldl
      (fun tf pg => tf.patch_page (tablePageFrom pg).1 (tablePageFrom pg).2)
      (db.table.truncate (offsetFrom (pageRead p0 8 6))) ∧
    db.recover.mem = db.mem ∧
    (∀ committed ext : List Content, db.data.records = committed ++ ext →
      committed.length = offsetFrom (pageRead p0 2 6) →
      db.recover.data.records = committed) ∧
    (∀ committed ext : List (List (Nat × Nat) × Nat),
      db.link.records = committed ++ ext →
      committed.length = offsetFrom (pageRead p0 14 6) →
      db.recover.link.records = committed) ∧
    (∀ d t l : Nat, p0 = mkSnapshotPage d t l → d < 2 ^ 48 → t < 2 ^ 48 →
      l < 2 ^ 48 →
      offsetFrom (pageRead p0 2 6) = d ∧ offsetFrom (pageRead p0 8 6) = t ∧
        offsetFrom (pageRead p0 14 6) = l) := by
  have hrec : db.recover =
      { db with
          data := db.data.truncate (offsetFrom (pageRead p0 2 6)),
          table := rest.foldl
            (fun tf pg => tf.patch_page (tablePageFrom pg).1 (tablePageFrom pg).2)
            (db.table.truncate (offsetFrom (pageRead p0 8 6))),
          link := db.link.truncate (offsetFrom (pageRead p0 14 6)) } := by
    unfold BCDB.recover
    rw [hlog]
    simp only [List.foldl_cons, recoverStep_first, foldl_recoverStep_false]
  refine ⟨by rw [hrec], by rw [hrec], by rw [hrec], by rw [hrec], ?_, ?_, ?_⟩
  · intro committed ext hsplit hlen
    rw [hrec]
    simp only [DataFile.truncate, hsplit, ← hlen, List.take_left]
  · intro committed ext hsplit hlen
    rw [hrec]
    simp only [LinkFile.truncate, hsplit, ← hlen, List.take_left]
  · intro d t l hp0 hd ht hl
    subst hp0
    obtain ⟨h2, h8, h14⟩ := pageRead_snapshot d t l
    rw [h2, h8, h14, offsetFrom_be6 d hd, offsetFrom_be6 t ht, offsetFrom_be6 l hl]
    exact ⟨rfl, rfl, rfl⟩

/-- Witness for C2 at a concrete state: a two-record Content Log, a one-record
Link Log, a two-page Index Table, and a log holding the snapshot (1, 1, 0)
followed by one redo image for page 0. -/
theorem recover_replays_log_witness :
    recDb.recover.data.records = [Content.extension [1]] ∧
    recDb.recover.link.records = [] ∧
    recDb.recover.table = ⟨[[9]]⟩ ∧
    recDb.recover.mem = recDb.mem ∧
    offsetFrom (pageRead (mkSnapshotPage 1 1 0) 2 6) = 1 := by
  have h := recover_replays_log recDb (mkSnapshotPage 1 1 0) [mkPatchPage 0 [9]] rfl
  refine ⟨h.2.2.2.2.1 [Content.extension [1]] [Content.extension [2]] rfl (by decide),
          h.2.2.2.2.2.1 [] [([(5, 0)], 0)] rfl (by decide),
          ?_, h.2.2.2.1,
          (h.2.2.2.2.2.2 1 1 0 rfl (by decide) (by decide) (by decide)).1⟩
  rw [h.2.2.1]
  decide

/-- Claim C3: a `batch` call performs exactly the steps flush Content Log,
sync Content Log, flush the Write-Back Index, sync the Link Log, sync the
Index Table, write a Recovery Log snapshot of the three new lengths, sync the
Recovery Log — in that order; the snapshot written holds exactly the new
lengths of the Content Log, Index Table and Link Log. -/
theorem batch_event_order (db : BCDB) :
    db.batch.events = db.events ++
      [Ev.dataFlush, Ev.dataSync, Ev.memFlush, Ev.linkSync, Ev.tableSync,
       Ev.logInit db.data.records.length db.batch.table.pages.length
         db.batch.link.records.length, Ev.logSync] ∧
    db.batch.log.pages = [mkSnapshotPage db.data.records.length
      db.batch.table.pages.length db.batch.link.records.length] ∧
    db.batch.data = db.data := by
  refine ⟨?_, rfl, rfl⟩
  show (db.events ++ [Ev.dataFlush, Ev.dataSync] ++ [Ev.memFlush, Ev.linkSync] ++
      [Ev.tableSync]) ++ _ = _
  simp only [List.append_assoc, List.cons_append, List.nil_append, List.append_cancel_left_eq]
  exact rfl

/-- Claim C10: `shutdown` only stops the background writers of the Content Log
and the Link Log; it returns no error (it is a total function into `BCDB`),
and it leaves the Write-Back Index, the Index Table, the Recovery Log and the
contents of the Content and Link Logs unchanged; its event trace records no
flush, sync, or snapshot write. -/
theorem shutdown_frame (db : BCDB) :
    db.shutdown.mem = db.mem ∧
    db.shutdown.table = db.table ∧
    db.shutdown.log = db.log ∧
    db.shutdown.data.records = db.data.records ∧
    db.shutdown.link.records = db.link.records ∧
    db.shutdown.data.running = false ∧
    db.shutdown.link.running = false ∧
    db.shutdown.events = db.events ++ [Ev.dataShutdown, Ev.linkShutdown] :=
  ⟨rfl, rfl, rfl, rfl, rfl, rfl, rfl, rfl⟩

/-- Claim C6: for every state and payload, `put_content` followed by
`get_content` on the returned offset succeeds with exactly the empty key list
and that payload. -/
theorem put_content_get_content (db : BCDB) (payload : List Nat) :
    (db.put_content payload).2.get_content (db.put_content payload).1 =
      Except.ok ([], payload) := by
  simp [BCDB.put_content, BCDB.get_content, DataFile.append_data_extension,
    DataFile.get_content, List.getElem?_concat_length]

/-- Claim C7: `get_content` returns the record's keys and payload when the
offset resolves to a Keyed record, the empty key list and the payload when it
resolves to an Extension record, and fails with a `Corrupted` error naming the
offset when it resolves to neither — never an empty success. -/
theorem get_content_cases (db : BCDB) (offset : Nat) :
    (∀ ks p, db.data.get_content offset = some (Content.data ks p) →
      db.get_content offset = Except.ok (ks, p)) ∧
    (∀ p, db.data.get_content offset = some (Content.extension p) →
      db.get_content offset = Except.ok ([], p)) ∧
    (db.data.get_content offset = none →
      db.get_content offset =
        Except.error (BCDBError.Corrupted ("wrong offset " ++ toString offset))) := by
  refine ⟨?_, ?_, ?_⟩
  · intro ks p h; simp [BCDB.get_content, h]
  · intro p h; simp [BCDB.get_content, h]
  · intro h; simp [BCDB.get_content, h]

/-- Witness for C7 at a concrete two-record database: offset 0 is a Keyed
record, offset 1 an Extension record, offset 2 resolves to neither. -/
theorem get_content_cases_witness :
    cdb7.get_content 0 = Except.ok ([[1]], [2]) ∧
    cdb7.get_content 1 = Except.ok ([], [3]) ∧
    cdb7.get_content 2 =
      Except.error (BCDBError.Corrupted ("wrong offset " ++ toString 2)) :=
  ⟨(get_content_cases cdb7 0).1 [[1]] [2] rfl,
   (get_content_cases cdb7 1).2.1 [3] rfl,
   (get_content_cases cdb7 2).2.2 rfl⟩

/-- Claim C9: `get_content` cannot distinguish a Keyed record stored with an
empty key list from an Extension record: both resolve to exactly
`(empty key list, payload)`. -/
theorem keyed_empty_vs_extension (db : BCDB) (payload : List Nat) :
    ((db.putU [] payload).2.put_content payload).2.get_content
        (db.putU [] payload).1 = Except.ok ([], payload) ∧
    ((db.putU [] payload).2.put_content payload).2.get_content
        ((db.putU [] payload).2.put_content payload).1 = Except.ok ([], payload) := by
  have hrecs : ((db.putU [] payload).2.put_content payload).2.data.records =
      db.data.records ++ [Content.data [] payload, Content.extension payload] := by
    simp [BCDB.putU, BCDB.put_content, DataFile.append_data,
      DataFile.append_data_extension]
  have h1 : ((db.putU [] payload).2.put_content payload).2.data.get_content
      db.data.records.length = some (Content.data [] payload) := by
    rw [DataFile.get_content, hrecs, List.get?_eq_getElem?,
      List.getElem?_append_right (Nat.le_refl _)]
    simp
  have h2 : ((db.putU [] payload).2.put_content payload).2.data.get_content
      (db.data.records.length + 1) = some (Content.extension payload) := by
    rw [DataFile.get_content, hrecs, List.get?_eq_getElem?,
      List.getElem?_append_right (Nat.le_succ _)]
    simp
  have ho1 : (db.putU [] payload).1 = db.data.records.length := rfl
  have ho2 : ((db.putU [] payload).2.put_content payload).1 =
      db.data.records.length + 1 := by
    simp [BCDB.putU, BCDB.put_content, DataFile.append_data,
      DataFile.append_data_extension]
  constructor
  · rw [ho1, BCDB.get_content, h1]
  · rw [ho2, BCDB.get_content, h2]

/-- Claim C1 (refutation of unconditional checking): the size-limit check of
`put` runs only when `debug_assertions` is on.  With 256 keys the debug build
fails with `DoesNotFit`, but the release build succeeds and appends the
oversized record to the Content Log. -/
theorem put_size_check_debug_only :
    BCDB.put true initDb keys256 [] = Except.error BCDBError.DoesNotFit ∧
    BCDB.put false initDb keys256 [] = Except.ok (initDb.putU keys256 []) ∧
    (initDb.putU keys256 []).1 = 0 ∧
    (initDb.putU keys256 []).2.data.records =
      initDb.data.records ++ [Content.data keys256 []] := by
  refine ⟨?_, by simp [BCDB.put], rfl, rfl⟩
  have h256 : keys256.length > 255 := by simp [keys256]
  rw [BCDB.put, if_pos ⟨rfl, Or.inl h256⟩]

/-! ## Write-Back Index load order at open (C5) -/

theorem flushAux_nop (bs : List Bucket) :
    ∀ (i : Nat) (lg : LogFile) (tf : TableFile) (lf : LinkFile),
      (∀ b ∈ bs, b.pending = []) →
      flushAux i bs lg tf lf = (bs, lg, tf, lf) := by
  induction bs with
  | nil => intro i lg tf lf _; rfl
  | cons b rest ih =>
    intro i lg tf lf hall
    have hb : b.pending = [] := hall b (by simp)
    have hrest : ∀ b' ∈ rest, b'.pending = [] := fun b' hb' => hall b' (by simp [hb'])
    simp [flushAux, hb, ih (i + 1) lg tf lf hrest]

theorem batch_mem_of_no_pending (db : BCDB)
    (hnp : ∀ b ∈ db.mem.buckets, b.pending = []) : db.batch.mem = db.mem := by
  show (⟨(flushAux 0 db.mem.buckets db.log db.table db.link).1⟩ : MemTable) = db.mem
  rw [flushAux_nop db.mem.buckets 0 db.log db.table db.link hnp]

/-- Counterexample to claim C5: at open, `BCDB::new` loads the Write-Back
Index *before* recovery patches the Index Table, so the in-memory bucket heads
(here `[7]`, the pre-recovery table) differ from what loading the
post-recovery Index Table (patched to `[9]`) would give. -/
theorem new_loads_pre_recovery_cex :
    (BCDB.new cexLog cexTable cexData cexLink).mem ≠
      MemTable.load (BCDB.new cexLog cexTable cexData cexLink).table
        (BCDB.new cexLog cexTable cexData cexLink).link ∧
    (BCDB.new cexLog cexTable cexData cexLink).mem = MemTable.load cexTable cexLink ∧
    (BCDB.new cexLog cexTable cexData cexLink).table.pages = [[9]] ∧
    MemTable.load cexTable cexLink = ⟨[⟨[], 7⟩]⟩ := by
  refine ⟨by decide, by decide, by decide, by decide⟩

/-- Amended claim C5: at open the engine loads the Write-Back Index by reading
every Index Table bucket into memory *before* the recovery procedure runs —
the in-memory bucket heads reflect the pre-recovery Index Table contents —
and then runs recovery and starts the first batch. -/
theorem new_mem_is_pre_recovery_load (lg : LogFile) (tf : TableFile)
    (df : DataFile) (lf : LinkFile) :
    (BCDB.new lg tf df lf).mem = MemTable.load tf lf ∧
    BCDB.new lg tf df lf = ((BCDB.mk0 lg tf df lf).recover).batch := by
  refine ⟨?_, rfl⟩
  have hmem : ((BCDB.mk0 lg tf df lf).recover).mem = MemTable.load tf lf := by
    show ((BCDB.mk0 lg tf df lf).log.pages.foldl recoverStep
      (BCDB.mk0 lg tf df lf, true)).1.mem = _
    rw [foldl_recoverStep_mem]
    rfl
  have hnp : ∀ b ∈ ((BCDB.mk0 lg tf df lf).recover).mem.buckets, b.pending = [] := by
    rw [hmem]
    intro b hb
    simp only [MemTable.load, List.mem_map] at hb
    obtain ⟨h, _, rfl⟩ := hb
    rfl
  show (((BCDB.mk0 lg tf df lf).recover).batch).mem = _
  rw [batch_mem_of_no_pending _ hnp, hmem]

/-! ## Write-Back Index put characterization -/

theorem MemTable.put_nil (m : MemTable) (off : Nat) : m.put [] off = m := rfl

theorem MemTable.put_cons (m : MemTable) (k : List Nat) (ks : List (List Nat))
    (off : Nat) :
    m.put (k :: ks) off =
      MemTable.put ⟨modifyBucket m.buckets (bucketOf k)
        (fun b => ⟨(slotTag k, off) :: b.pending, b.head⟩)⟩ ks off := rfl

theorem memput_length (ks : List (List Nat)) (off : Nat) :
    ∀ m : MemTable, (m.put ks off).buckets.length = m.buckets.length := by
  induction ks with
  | nil => intro m; rfl
  | cons k ks ih =>
    intro m
    rw [MemTable.put_cons, ih]
    simp [modifyBucket]

theorem newEntriesFor_nil (j : Nat) (off : Nat) : newEntriesFor j [] off = [] := rfl

theorem newEntriesFor_cons (j : Nat) (k : List Nat) (ks : List (List Nat))
    (off : Nat) :
    newEntriesFor j (k :: ks) off =
      if bucketOf k = j then newEntriesFor j ks off ++ [(slotTag k, off)]
      else newEntriesFor j ks off := by
  by_cases h : bucketOf k = j <;>
    simp [newEntriesFor, List.filter_cons, h]

theorem newEntriesFor_offsets (j : Nat) (ks : List (List Nat)) (off : Nat) :
    ∀ e ∈ newEntriesFor j ks off, e.2 = off := by
  intro e he
  simp only [newEntriesFor, List.mem_map] at he
  obtain ⟨k, _, rfl⟩ := he
  rfl

theorem modifyBucket_length (bs : List Bucket) (i : Nat) (f : Bucket → Bucket) :
    (modifyBucket bs i f).length = bs.length := by
  simp [modifyBucket]

theorem modifyBucket_get?_self (bs : List Bucket) (i : Nat) (f : Bucket → Bucket)
    (b : Bucket) (hi : bs.get? i = some b) (hlt : i < bs.length) :
    (modifyBucket bs i f).get? i = some (f b) := by
  rw [modifyBucket, hi, Option.getD_some, List.get?_eq_getElem?]
  exact List.getElem?_set_self hlt

theorem modifyBucket_get?_ne (bs : List Bucket) (i j : Nat) (f : Bucket → Bucket)
    (h : i ≠ j) : (modifyBucket bs i f).get? j = bs.get? j := by
  rw [modifyBucket, List.get?_eq_getElem?, List.getElem?_set_ne h,
    ← List.get?_eq_getElem?]

theorem memput_get? (ks : List (List Nat)) (off : Nat) :
    ∀ (m : MemTable) (j : Nat) (b : Bucket), j < m.buckets.length →
      m.buckets.get? j = some b →
      (m.put ks off).buckets.get? j =
        some ⟨newEntriesFor j ks off ++ b.pending, b.head⟩ := by
  induction ks with
  | nil =>
    intro m j b hj hb
    rw [MemTable.put_nil, hb, newEntriesFor_nil]
    cases b
    simp
  | cons k ks ih =>
    intro m j b hj hb
    rw [MemTable.put_cons]
    have hlen : j < (MemTable.mk (modifyBucket m.buckets (bucketOf k)
        (fun b => ⟨(slotTag k, off) :: b.pending, b.head⟩))).buckets.length := by
      show j < (modifyBucket m.buckets (bucketOf k)
        (fun b => ⟨(slotTag k, off) :: b.pending, b.head⟩)).length
      rw [modifyBucket_length]
      exact hj
    by_cases hk : bucketOf k = j
    · have hset : (MemTable.mk (modifyBucket m.buckets (bucketOf k)
          (fun b => ⟨(slotTag k, off) :: b.pending, b.head⟩))).buckets.get? j =
          some ⟨(slotTag k, off) :: b.pending, b.head⟩ := by
        show (modifyBucket m.buckets (bucketOf k)
          (fun b => ⟨(slotTag k, off) :: b.pending, b.head⟩)).get? j =
          some ⟨(slotTag k, off) :: b.pending, b.head⟩
        subst hk
        exact modifyBucket_get?_self m.buckets (bucketOf k) _ b hb hj
      rw [ih _ j _ hlen hset, newEntriesFor_cons, if_pos hk]
      simp
    · have hset : (MemTable.mk (modifyBucket m.buckets (bucketOf k)
          (fun b => ⟨(slotTag k, off) :: b.pending, b.head⟩))).buckets.get? j =
          some b := by
        show (modifyBucket m.buckets (bucketOf k)
          (fun b => ⟨(slotTag k, off) :: b.pending, b.head⟩)).get? j = some b
        rw [modifyBucket_get?_ne m.buckets (bucketOf k) j _ hk]
        exact hb
      rw [ih _ j _ hlen hset, newEntriesFor_cons, if_neg hk]

/-- Resolution is stable under appending to the Content Log when the entry
targets an existing record. -/
theorem resolveEntry_ext (df df' : DataFile) (ext : List Content)
    (hrec : df'.records = df.records ++ ext) (key : List Nat) (e : Nat × Nat)
    (he : e.2 < df.records.length) :
    resolveEntry df' key e = resolveEntry df key e := by
  simp [resolveEntry, DataFile.get_content, hrec, List.getElem?_append_left he]

theorem get_eq_of_bucket (db : BCDB) (key : List Nat) (b : Bucket)
    (hb : db.mem.buckets.get? (bucketOf key) = some b) :
    db.get key =
      (b.pending ++ chainEntries db.link b.head).filterMap
        (resolveEntry db.data key) := by
  rw [BCDB.get, MemTable.get, hb]
  rfl

/-! ## The effect of put on get -/

theorem bucketOf_lt (key : List Nat) : bucketOf key < NBUCKETS :=
  Nat.mod_lt _ (by decide)

theorem putU_fields (db : BCDB) (ks : List (List Nat)) (p : List Nat) :
    (db.putU ks p).1 = db.data.records.length ∧
    (db.putU ks p).2.data.records = db.data.records ++ [Content.data ks p] ∧
    (db.putU ks p).2.link = db.link ∧
    (db.putU ks p).2.mem = db.mem.put ks db.data.records.length :=
  ⟨rfl, rfl, rfl, rfl⟩

/-- Every chain entry reachable by `get` in a well-formed state targets an
existing Content Log record. -/
theorem WF_entry_bound (db : BCDB) (hWF : WF db) (b : Bucket)
    (hb : b ∈ db.mem.buckets) (e : Nat × Nat)
    (he : e ∈ b.pending ++ chainEntries db.link b.head) :
    e.2 < db.data.records.length := by
  rcases List.mem_append.1 he with hp | hc
  · exact ((hWF.2.1 b hb).1 e hp)
  · obtain ⟨r, hr, hre⟩ := chainEntries_entries_mem db.link b.head e hc
    exact hWF.2.2 r hr e hre

theorem get_putU_core (db : BCDB) (hWF : WF db) (ks : List (List Nat))
    (p : List Nat) (key : List Nat) :
    (db.putU ks p).2.get key =
      (newEntriesFor (bucketOf key) ks db.data.records.length).filterMap
        (resolveEntry (db.putU ks p).2.data key) ++ db.get key := by
  have hj : bucketOf key < db.mem.buckets.length := by
    rw [hWF.1]; exact bucketOf_lt key
  have hb : db.mem.buckets.get? (bucketOf key) =
      some (db.mem.buckets.get ⟨bucketOf key, hj⟩) := List.get?_eq_get hj
  set b := db.mem.buckets.get ⟨bucketOf key, hj⟩ with hbdef
  have hb' : (db.putU ks p).2.mem.buckets.get? (bucketOf key) =
      some ⟨newEntriesFor (bucketOf key) ks db.data.records.length ++ b.pending,
        b.head⟩ :=
    memput_get? ks db.data.records.length db.mem (bucketOf key) b hj hb
  rw [get_eq_of_bucket (db.putU ks p).2 key _ hb', get_eq_of_bucket db key b hb]
  have hlink : (db.putU ks p).2.link = db.link := rfl
  rw [hlink, List.append_assoc, List.filterMap_append]
  congr 1
  apply List.filterMap_congr
  intro e he
  exact resolveEntry_ext db.data (db.putU ks p).2.data [Content.data ks p] rfl key e
    (WF_entry_bound db hWF b (List.get?_mem hb) e he)

/-- A single-key put prepends exactly its own record to the key's `get`
sequence. -/
theorem get_putU_single (db : BCDB) (hWF : WF db) (k : List Nat) (p : List Nat) :
    (db.putU [k] p).2.get k = (db.data.records.length, [k], p) :: db.get k := by
  rw [get_putU_core db hWF [k] p k]
  have hne : newEntriesFor (bucketOf k) [k] db.data.records.length =
      [(slotTag k, db.data.records.length)] := by
    simp [newEntriesFor]
  rw [hne]
  have hres : resolveEntry (db.putU [k] p).2.data k
      (slotTag k, db.data.records.length) =
      some (db.data.records.length, [k], p) := by
    simp [resolveEntry, DataFile.get_content, BCDB.putU, DataFile.append_data,
      List.getElem?_concat_length]
  simp [List.filterMap_cons, hres]

/-- The record of a multi-key put is in the `get` sequence of each of its
keys, at the shared offset. -/
theorem get_putU_mem (db : BCDB) (hWF : WF db) (ks : List (List Nat))
    (p : List Nat) (key : List Nat) (hk : key ∈ ks) :
    (db.data.records.length, ks, p) ∈ (db.putU ks p).2.get key := by
  rw [get_putU_core db hWF ks p key]
  refine List.mem_append.2 (Or.inl (List.mem_filterMap.2
    ⟨(slotTag key, db.data.records.length), ?_, ?_⟩))
  · simp only [newEntriesFor, List.mem_map, List.mem_reverse, List.mem_filter]
    exact ⟨key, ⟨hk, by simp⟩, rfl⟩
  · simp [resolveEntry, DataFile.get_content, BCDB.putU, DataFile.append_data,
      List.getElem?_concat_length, hk]

/-- `get` sequences only grow (as suffixes) under further puts. -/
theorem get_putU_suffix (db : BCDB) (hWF : WF db) (ks : List (List Nat))
    (p : List Nat) (key : List Nat) (x : Nat × List (List Nat) × List Nat)
    (hx : x ∈ db.get key) : x ∈ (db.putU ks p).2.get key := by
  rw [get_putU_core db hWF ks p key]
  exact List.mem_append.2 (Or.inr hx)

theorem WF_putU (db : BCDB) (hWF : WF db) (ks : List (List Nat)) (p : List Nat) :
    WF (db.putU ks p).2 := by
  obtain ⟨hlen, hbuckets, hlink⟩ := hWF
  refine ⟨?_, ?_, ?_⟩
  · show (db.mem.put ks db.data.records.length).buckets.length = NBUCKETS
    rw [memput_length, hlen]
  · intro b' hb'
    obtain ⟨j, hj⟩ := List.mem_iff_get?.1 hb'
    have hjlt : j < db.mem.buckets.length := by
      by_contra hge
      rw [List.get?_eq_getElem?, List.getElem?_eq_none (by
        rw [show (db.putU ks p).2.mem.buckets.length = db.mem.buckets.length from
          memput_length ks db.data.records.length db.mem]
        omega)] at hj
      exact Option.noConfusion hj
    have hborig : db.mem.buckets.get? j =
        some (db.mem.buckets.get ⟨j, hjlt⟩) := List.get?_eq_get hjlt
    set b := db.mem.buckets.get ⟨j, hjlt⟩ with hbdef
    have hchar := memput_get? ks db.data.records.length db.mem j b hjlt hborig
    rw [show (db.putU ks p).2.mem = db.mem.put ks db.data.records.length from rfl,
      hchar] at hj
    obtain rfl : b' = ⟨newEntriesFor j ks db.data.records.length ++ b.pending,
        b.head⟩ := by
      cases hj; rfl
    have hdlen : (db.putU ks p).2.data.records.length =
        db.data.records.length + 1 := by
      simp [BCDB.putU, DataFile.append_data]
    constructor
    · intro e he
      rcases List.mem_append.1 he with hn | ho
      · rw [newEntriesFor_offsets j ks db.data.records.length e hn, hdlen]
        omega
      · have := (hbuckets b (List.get?_mem hborig)).1 e ho
        rw [hdlen]; omega
    · show b.head ≤ (db.putU ks p).2.link.records.length
      exact (hbuckets b (List.get?_mem hborig)).2
  · intro r hr e hre
    have : e.2 < db.data.records.length := hlink r hr e hre
    have hdlen : (db.putU ks p).2.data.records.length =
        db.data.records.length + 1 := by
      simp [BCDB.putU, DataFile.append_data]
    rw [hdlen]; omega

/-! ## The effect of batch flush on chains -/

theorem flushAux_cons_empty (i : Nat) (b : Bucket) (rest : List Bucket)
    (lg : LogFile) (tf : TableFile) (lf : LinkFile) (h : b.pending = []) :
    flushAux i (b :: rest) lg tf lf =
      (b :: (flushAux (i + 1) rest lg tf lf).1,
       (flushAux (i + 1) rest lg tf lf).2) := by
  rw [flushAux, if_pos h]

theorem flushAux_cons_ne (i : Nat) (b : Bucket) (rest : List Bucket)
    (lg : LogFile) (tf : TableFile) (lf : LinkFile) (h : ¬b.pending = []) :
    flushAux i (b :: rest) lg tf lf =
      (⟨[], lf.records.length + 1⟩ ::
        (flushAux (i + 1) rest
          (lg.append_redo (mkPatchPage (i / BPP)
            (((tf.pages.get? (i / BPP)).getD []).set (i % BPP)
              (lf.records.length + 1))))
          (tf.patch_page (i / BPP)
            (((tf.pages.get? (i / BPP)).getD []).set (i % BPP)
              (lf.records.length + 1)))
          (lf.append b.pending b.head).2).1,
       (flushAux (i + 1) rest
          (lg.append_redo (mkPatchPage (i / BPP)
            (((tf.pages.get? (i / BPP)).getD []).set (i % BPP)
              (lf.records.length + 1))))
          (tf.patch_page (i / BPP)
            (((tf.pages.get? (i / BPP)).getD []).set (i % BPP)
              (lf.records.length + 1)))
          (lf.append b.pending b.head).2).2) := by
  rw [flushAux, if_neg h]
  rfl

theorem flushAux_spec (bs : List Bucket) :
    ∀ (i : Nat) (lg : LogFile) (tf : TableFile) (lf : LinkFile),
      (∀ b ∈ bs, b.head ≤ lf.records.length) →
      ∃ ext : List (List (Nat × Nat) × Nat),
        (flushAux i bs lg tf lf).2.2.2.records = lf.records ++ ext ∧
        (flushAux i bs lg tf lf).1.length = bs.length ∧
        (∀ rec ∈ ext, ∃ b ∈ bs, rec.1 = b.pending) ∧
        (∀ j b' b, (flushAux i bs lg tf lf).1.get? j = some b' →
          bs.get? j = some b →
          (b'.pending ++ chainEntries (flushAux i bs lg tf lf).2.2.2 b'.head =
            b.pending ++ chainEntries lf b.head) ∧
          b'.head ≤ (flushAux i bs lg tf lf).2.2.2.records.length ∧
          (b'.pending = b.pending ∨ b'.pending = [])) := by
  induction bs with
  | nil =>
    intro i lg tf lf _
    refine ⟨[], by simp [flushAux], rfl, by simp, ?_⟩
    intro j b' b h1 _
    simp [flushAux] at h1
  | cons b rest ih =>
    intro i lg tf lf hheads
    have hbhead : b.head ≤ lf.records.length := hheads b (by simp)
    have hrest : ∀ b'' ∈ rest, b''.head ≤ lf.records.length :=
      fun b'' h => hheads b'' (by simp [h])
    by_cases hbp : b.pending = []
    · obtain ⟨ext, hrec, hlen, hsrc, hpres⟩ := ih (i + 1) lg tf lf hrest
      rw [flushAux_cons_empty i b rest lg tf lf hbp]
      refine ⟨ext, hrec, by simpa using hlen, ?_, ?_⟩
      · intro rec hr
        obtain ⟨b'', hb'', he⟩ := hsrc rec hr
        exact ⟨b'', by simp [hb''], he⟩
      · intro j b' borig h1 h2
        cases j with
        | zero =>
          have hb' : b' = b := by simpa using h1.symm
          have hbo : borig = b := by simpa using h2.symm
          rw [hb', hbo]
          refine ⟨?_, ?_, Or.inl rfl⟩
          · rw [chainEntries_ext lf _ ext hrec b.head hbhead]
          · rw [hrec]
            simp only [List.length_append]
            omega
        | succ j =>
          simp only [List.get?_cons_succ] at h1 h2
          exact hpres j b' borig h1 h2
    · have hap : (lf.append b.pending b.head).2.records =
          lf.records ++ [(b.pending, b.head)] := rfl
      have hrest1 : ∀ b'' ∈ rest,
          b''.head ≤ (lf.append b.pending b.head).2.records.length := by
        intro b'' h
        rw [hap]
        simp only [List.length_append, List.length_singleton]
        exact le_trans (hrest b'' h) (by omega)
      obtain ⟨ext', hrec, hlen, hsrc, hpres⟩ := ih (i + 1)
        (lg.append_redo (mkPatchPage (i / BPP)
          (((tf.pages.get? (i / BPP)).getD []).set (i % BPP)
            (lf.records.length + 1))))
        (tf.patch_page (i / BPP)
          (((tf.pages.get? (i / BPP)).getD []).set (i % BPP)
            (lf.records.length + 1)))
        (lf.append b.pending b.head).2 hrest1
      rw [flushAux_cons_ne i b rest lg tf lf hbp]
      refine ⟨(b.pending, b.head) :: ext', ?_, by simpa using hlen, ?_, ?_⟩
      · rw [hrec, hap]
        simp
      · intro rec hr
        rcases List.mem_cons.1 hr with rfl | hr'
        · exact ⟨b, by simp, rfl⟩
        · obtain ⟨b'', hb'', he⟩ := hsrc rec hr'
          exact ⟨b'', by simp [hb''], he⟩
      · intro j b' borig h1 h2
        cases j with
        | zero =>
          have hb' : b' = (⟨[], lf.records.length + 1⟩ : Bucket) := by
            simpa using h1.symm
          have hbo : borig = b := by simpa using h2.symm
          rw [hb', hbo]
          have hlen1 : lf.records.length + 1 ≤
              (lf.append b.pending b.head).2.records.length := by
            rw [hap]; simp
          refine ⟨?_, ?_, Or.inr rfl⟩
          · show [] ++ chainEntries _ (lf.records.length + 1) = _
            rw [List.nil_append,
              chainEntries_ext (lf.append b.pending b.head).2 _ ext' hrec
                (lf.records.length + 1) hlen1]
            exact chainEntries_append lf b.pending b.head hbhead
          · show lf.records.length + 1 ≤ _
            rw [hrec, hap]
            simp only [List.length_append, List.length_singleton]
            omega
        | succ j =>
          simp only [List.get?_cons_succ] at h1 h2
          obtain ⟨hchain, hhead, hpend⟩ := hpres j b' borig h1 h2
          have hbo_head : borig.head ≤ lf.records.length :=
            hrest borig (List.get?_mem h2)
          refine ⟨?_, hhead, hpend⟩
          rw [hchain,
            chainEntries_ext lf (lf.append b.pending b.head).2
              [(b.pending, b.head)] hap borig.head hbo_head]

theorem batch_fields (db : BCDB) :
    db.batch.mem.buckets = (flushAux 0 db.mem.buckets db.log db.table db.link).1 ∧
    db.batch.link = (flushAux 0 db.mem.buckets db.log db.table db.link).2.2.2 ∧
    db.batch.data = db.data :=
  ⟨rfl, rfl, rfl⟩

/-- Committing a batch does not change the result of any `get`. -/
theorem batch_get (db : BCDB) (hWF : WF db) (key : List Nat) :
    db.batch.get key = db.get key := by
  have hheads : ∀ b ∈ db.mem.buckets, b.head ≤ db.link.records.length :=
    fun b hb => (hWF.2.1 b hb).2
  obtain ⟨ext, hrec, hlen, hsrc, hpres⟩ :=
    flushAux_spec db.mem.buckets 0 db.log db.table db.link hheads
  have hj : bucketOf key < db.mem.buckets.length := by
    rw [hWF.1]; exact bucketOf_lt key
  have hb : db.mem.buckets.get? (bucketOf key) =
      some (db.mem.buckets.get ⟨bucketOf key, hj⟩) := List.get?_eq_get hj
  have hj2 : bucketOf key <
      (flushAux 0 db.mem.buckets db.log db.table db.link).1.length := by
    rw [hlen]; exact hj
  have hb2 : (flushAux 0 db.mem.buckets db.log db.table db.link).1.get?
      (bucketOf key) =
      some ((flushAux 0 db.mem.buckets db.log db.table db.link).1.get
        ⟨bucketOf key, hj2⟩) := List.get?_eq_get hj2
  obtain ⟨hchain, _, _⟩ := hpres (bucketOf key) _ _ hb2 hb
  have hbmem : db.batch.mem.buckets.get? (bucketOf key) =
      some ((flushAux 0 db.mem.buckets db.log db.table db.link).1.get
        ⟨bucketOf key, hj2⟩) := hb2
  rw [get_eq_of_bucket db.batch key _ hbmem,
    get_eq_of_bucket db key _ hb]
  rw [show db.batch.link = (flushAux 0 db.mem.buckets db.log db.table
    db.link).2.2.2 from rfl, show db.batch.data = db.data from rfl]
  rw [hchain]

/-- Committing a batch preserves well-formedness. -/
theorem WF_batch (db : BCDB) (hWF : WF db) : WF db.batch := by
  obtain ⟨hNB, hbuckets, hlink⟩ := hWF
  have hheads : ∀ b ∈ db.mem.buckets, b.head ≤ db.link.records.length :=
    fun b hb => (hbuckets b hb).2
  obtain ⟨ext, hrec, hlen, hsrc, hpres⟩ :=
    flushAux_spec db.mem.buckets 0 db.log db.table db.link hheads
  refine ⟨?_, ?_, ?_⟩
  · show (flushAux 0 db.mem.buckets db.log db.table db.link).1.length = NBUCKETS
    rw [hlen, hNB]
  · intro b' hb'
    obtain ⟨j, hj⟩ := List.mem_iff_get?.1 hb'
    have hjlt : j < db.mem.buckets.length := by
      by_contra hge
      have hle : (flushAux 0 db.mem.buckets db.log db.table db.link).1.length ≤
          j := by
        rw [hlen]; omega
      have hj2 : (flushAux 0 db.mem.buckets db.log db.table db.link).1.get? j =
          some b' := hj
      rw [List.get?_eq_getElem?, List.getElem?_eq_none hle] at hj2
      exact Option.noConfusion hj2
    have hborig : db.mem.buckets.get? j =
        some (db.mem.buckets.get ⟨j, hjlt⟩) := List.get?_eq_get hjlt
    have hjq : (flushAux 0 db.mem.buckets db.log db.table db.link).1.get? j =
        some b' := hj
    obtain ⟨hchain, hhead, hpend⟩ := hpres j b' _ hjq hborig
    constructor
    · intro e he
      show e.2 < db.data.records.length
      rcases hpend with hp | hp
      · rw [hp] at he
        exact (hbuckets _ (List.get?_mem hborig)).1 e he
      · rw [hp] at he
        simp at he
    · exact hhead
  · intro r hr e hre
    show e.2 < db.data.records.length
    have hr' : r ∈ db.link.records ++ ext := by
      rw [← hrec]; exact hr
    rcases List.mem_append.1 hr' with h | h
    · exact hlink r h e hre
    · obtain ⟨bb, hbb, hbe⟩ := hsrc r h
      rw [hbe] at hre
      exact (hbuckets bb hbb).1 e hre

/-! ## Last write wins (C4) and shared offsets (C8) -/

theorem WF_initDb : WF initDb := by
  unfold WF
  exact ⟨by decide, by decide, by decide⟩

theorem runPutsK_append (k : List Nat) (ps : List (List Nat)) (p : List Nat) :
    runPutsK k (ps ++ [p]) =
      (((runPutsK k ps).1.putU [k] p).2,
        (runPutsK k ps).2 ++ [((runPutsK k ps).1.putU [k] p).1]) := by
  unfold runPutsK
  rw [List.foldl_append]
  rfl

theorem puthist_append (k : List Nat) (p : List Nat) :
    ∀ (ps : List (List Nat)) (n : Nat),
      puthist k n (ps ++ [p]) = (n + ps.length, [k], p) :: puthist k n ps := by
  intro ps
  induction ps with
  | nil => intro n; simp [puthist]
  | cons q ps ih =>
    intro n
    show puthist k (n + 1) (ps ++ [p]) ++ [(n, [k], q)] = _
    rw [ih (n + 1)]
    show ((n + 1 + ps.length, [k], p) :: puthist k (n + 1) ps) ++ [(n, [k], q)] =
      (n + (q :: ps).length, [k], p) :: (puthist k (n + 1) ps ++ [(n, [k], q)])
    rw [List.cons_append]
    congr 2
    simp
    omega

theorem get_initDb (k : List Nat) : initDb.get k = [] := by
  have hb : initDb.mem.buckets.get? (bucketOf k) = some ⟨[], 0⟩ := by
    show (List.replicate NBUCKETS (⟨[], 0⟩ : Bucket)).get? (bucketOf k) = _
    rw [List.get?_eq_getElem?, List.getElem?_replicate, if_pos (bucketOf_lt k)]
  rw [get_eq_of_bucket initDb k ⟨[], 0⟩ hb]
  rfl

theorem runPutsK_spec (k : List Nat) :
    ∀ ps : List (List Nat),
      WF (runPutsK k ps).1 ∧
      (runPutsK k ps).1.data.records.length = ps.length ∧
      (runPutsK k ps).2 = List.range ps.length ∧
      (runPutsK k ps).1.get k = puthist k 0 ps := by
  intro ps
  induction ps using List.reverseRecOn with
  | nil => exact ⟨WF_initDb, rfl, rfl, get_initDb k⟩
  | append_singleton ps p ih =>
    obtain ⟨hWF, hdlen, hoffs, hget⟩ := ih
    rw [runPutsK_append]
    refine ⟨WF_putU _ hWF [k] p, ?_, ?_, ?_⟩
    · show ((runPutsK k ps).1.putU [k] p).2.data.records.length = _
      rw [show ((runPutsK k ps).1.putU [k] p).2.data.records =
        (runPutsK k ps).1.data.records ++ [Content.data [k] p] from rfl]
      simp [hdlen]
    · show (runPutsK k ps).2 ++ [((runPutsK k ps).1.putU [k] p).1] = _
      rw [hoffs, show ((runPutsK k ps).1.putU [k] p).1 =
        (runPutsK k ps).1.data.records.length from rfl, hdlen]
      rw [show (ps ++ [p]).length = ps.length + 1 by simp, List.range_succ]
    · show ((runPutsK k ps).1.putU [k] p).2.get k = _
      rw [get_putU_single _ hWF k p, hget, hdlen, puthist_append]
      simp

/-- Claim C4: `get_unique` is exactly the head of `get`; after a sequence of
single-key puts for `k` (offsets `0..n`) followed by `batch`, `get_unique k`
returns the most recent payload at the greatest offset ever returned. -/
theorem get_unique_last_write_wins (k : List Nat) (ps : List (List Nat))
    (plast : List Nat) :
    (runPutsK k (ps ++ [plast])).2 = List.range (ps.length + 1) ∧
    (∀ o ∈ (runPutsK k (ps ++ [plast])).2, o ≤ ps.length) ∧
    ((runPutsK k (ps ++ [plast])).1.batch).get_unique k =
      some (ps.length, [k], plast) ∧
    (∀ (db : BCDB) (key : List Nat), db.get_unique key = (db.get key).head?) := by
  obtain ⟨hWF, hdlen, hoffs, hget⟩ := runPutsK_spec k (ps ++ [plast])
  have hlen : (ps ++ [plast]).length = ps.length + 1 := by simp
  refine ⟨by rw [hoffs, hlen], ?_, ?_, fun db key => rfl⟩
  · intro o ho
    rw [hoffs, hlen] at ho
    have := List.mem_range.1 ho
    omega
  · show (((runPutsK k (ps ++ [plast])).1.batch).get k).head? = _
    rw [batch_get _ hWF k, hget, puthist_append]
    simp

theorem runOps_cons (db : BCDB) (op : List (List Nat) × List Nat)
    (ops : List (List (List Nat) × List Nat)) :
    runOps db (op :: ops) = runOps (db.putU op.1 op.2).2 ops := rfl

theorem runOps_mono (ops : List (List (List Nat) × List Nat)) :
    ∀ db : BCDB, WF db →
      WF (runOps db ops) ∧
      ∀ (key : List Nat) (x : Nat × List (List Nat) × List Nat),
        x ∈ db.get key → x ∈ (runOps db ops).get key := by
  induction ops with
  | nil => intro db hWF; exact ⟨hWF, fun _ _ hx => hx⟩
  | cons op rest ih =>
    intro db hWF
    obtain ⟨hWF', hmono⟩ := ih (db.putU op.1 op.2).2 (WF_putU db hWF op.1 op.2)
    exact ⟨hWF', fun key x hx =>
      hmono key x (get_putU_suffix db hWF op.1 op.2 key x hx)⟩

/-- Claim C8: one successful multi-key put appends exactly one Content Log
record and records the same offset for every key, so — after any later puts
and a `batch` — any two keys of that put resolve via `get` to the identical
`(Offset, keys, payload)` tuple. -/
theorem multi_key_put_shared_offset (db : BCDB) (hWF : WF db)
    (ks : List (List Nat)) (p : List Nat)
    (later : List (List (List Nat) × List Nat)) (k1 k2 : List Nat)
    (h1 : k1 ∈ ks) (h2 : k2 ∈ ks) :
    (db.putU ks p).2.data.records = db.data.records ++ [Content.data ks p] ∧
    (db.putU ks p).1 = db.data.records.length ∧
    (db.data.records.length, ks, p) ∈
      ((runOps (db.putU ks p).2 later).batch).get k1 ∧
    (db.data.records.length, ks, p) ∈
      ((runOps (db.putU ks p).2 later).batch).get k2 := by
  have hWF1 := WF_putU db hWF ks p
  obtain ⟨hWF2, hmono⟩ := runOps_mono later (db.putU ks p).2 hWF1
  refine ⟨rfl, rfl, ?_, ?_⟩
  · rw [batch_get _ hWF2 k1]
    exact hmono k1 _ (get_putU_mem db hWF ks p k1 h1)
  · rw [batch_get _ hWF2 k2]
    exact hmono k2 _ (get_putU_mem db hWF ks p k2 h2)

/-- Witness for C8: two keys stored by one put in the initial database share
offset 0 and both resolve to the identical tuple after `batch`. -/
theorem multi_key_put_shared_offset_witness :
    (initDb.putU [[1], [2]] [9]).2.data.records =
      initDb.data.records ++ [Content.data [[1], [2]] [9]] ∧
    (initDb.putU [[1], [2]] [9]).1 = initDb.data.records.length ∧
    (initDb.data.records.length, [[1], [2]], [9]) ∈
      ((runOps (initDb.putU [[1], [2]] [9]).2 []).batch).get [1] ∧
    (initDb.data.records.length, [[1], [2]], [9]) ∈
      ((runOps (initDb.putU [[1], [2]] [9]).2 []).batch).get [2] :=
  multi_key_put_shared_offset initDb
    (by unfold WF; exact ⟨by decide, by decide, by decide⟩) [[1], [2]] [9] [] [1] [2]
    (by decide) (by decide)
